import Mathlib

/-
Verification of the text-analysis notebook: anagram indexing, substring
search, word-list normalization and cached acquisition.

Embedding conventions:
* Python strings are modelled as lists of character code points
  (`List Nat`); `str.lower` is modelled for the ASCII range, which covers
  every character the claims exercise.
* Python dicts (insertion ordered) are association lists preserving
  insertion order; `d[k].append(w)` updates the first entry with key `k`
  and `d[k] = v` on a missing key appends a new entry at the end.
* The filesystem is an association list from path to content plus a list
  of existing directories; `print` output is collected in a log list;
  network calls are parameters describing the outcome of each call.
* Python exceptions are modelled with `Except`: an uncaught exception is
  an `Except.error` result.
-/

set_option autoImplicit false
set_option linter.unusedVariables false

namespace Shakespeare

/-! ## Python string primitives -/

/-- Lowercasing of a single code point, ASCII range (`str.lower`). -/
def lowerChar (c : Nat) : Nat :=
  if 65 ≤ c ∧ c ≤ 90 then c + 32 else c

/-- `str.lower` on a word. -/
def pyLower (w : List Nat) : List Nat :=
  w.map lowerChar

/-- Insert a code point into an already sorted list (ascending). -/
def pyInsert (c : Nat) : List Nat → List Nat
  | [] => [c]
  | d :: t => if c ≤ d then c :: d :: t else d :: pyInsert c t

/-- `sorted(word)`: the code points of the word in ascending order. -/
def pySort : List Nat → List Nat
  | [] => []
  | c :: t => pyInsert c (pySort t)

/-- Alphabetic ASCII code point (used for `str.isalpha`). -/
def isAlphaCode (c : Nat) : Bool :=
  (65 ≤ c && c ≤ 90) || (97 ≤ c && c ≤ 122)

/-- `str.isalpha`: nonempty and every character alphabetic. -/
def pyIsAlpha (w : List Nat) : Bool :=
  !w.isEmpty && w.all isAlphaCode

/-- The keyword occurs in `s` starting at offset `j`. -/
def occursAt (s kw : List Nat) (j : Nat) : Prop :=
  j + kw.length ≤ s.length ∧ (s.drop j).take kw.length = kw

instance (s kw : List Nat) (j : Nat) : Decidable (occursAt s kw j) := by
  unfold occursAt; infer_instance

/-- Python `str.find(sub, start)` (for a nonnegative `start`), returning the
least offset `j ≥ start` at which `sub` occurs, together with its bounds;
`none` models the return value `-1`. -/
def pyFindAux (s kw : List Nat) (start : Nat) :
    Option {j : Nat // start ≤ j ∧ j + kw.length ≤ s.length} :=
  if h : start + kw.length ≤ s.length then
    if (s.drop start).take kw.length == kw then
      some ⟨start, Nat.le_refl start, h⟩
    else
      match pyFindAux s kw (start + 1) with
      | none => none
      | some r => some ⟨r.val, Nat.le_of_succ_le r.property.1, r.property.2⟩
  else none
termination_by s.length + 1 - start
decreasing_by omega

/-- Python `str.find(sub, start)` as an optional offset. -/
def pyFind (s kw : List Nat) (start : Nat) : Option Nat :=
  (pyFindAux s kw start).map Subtype.val

/-! ## find_quotes -/

/-- The scanning loop of `find_quotes`: collect match offsets from `start`
onwards, restarting each search one position after the previous hit. -/
def findQuotesAux (s kw : List Nat) (start : Nat) : List Nat :=
  match pyFindAux s kw start with
  | none => []
  | some r => r.val :: findQuotesAux s kw (r.val + 1)
termination_by s.length + 1 - start
decreasing_by
  obtain ⟨j, hj1, hj2⟩ := r
  simp only at hj1 hj2 ⊢
  omega

/-- `find_quotes(text, keyword)` from the notebook. -/
def find_quotes (text keyword : List Nat) : List Nat :=
  findQuotesAux text keyword 0

/-! ## Anagram index -/

/-- The signature computed by `get_anagrams` and `get_anagrams_from_word`:
the code points of the word sorted first, then lowercased
(Python `''.join(sorted(word)).lower()`). -/
def sig (w : List Nat) : List Nat :=
  pyLower (pySort w)

/-- An insertion-ordered dict from signature to list of words. -/
abbrev AnagramDict : Type :=
  List (List Nat × List (List Nat))

/-- Dict lookup (`k in d` / `d[k]`): first entry with the given key. -/
def dictFind : AnagramDict → List Nat → Option (List (List Nat))
  | [], _ => none
  | (k₀, v₀) :: t, k => if k₀ = k then some v₀ else dictFind t k

/-- `d[k].append(w)`: append `w` to the value of the first entry keyed `k`. -/
def dictAppendAt : AnagramDict → List Nat → List Nat → AnagramDict
  | [], _, _ => []
  | (k₀, v₀) :: t, k, w =>
    if k₀ = k then (k₀, v₀ ++ [w]) :: t else (k₀, v₀) :: dictAppendAt t k w

/-- The loop of `get_anagrams`, processing the remaining words with the
dict built so far. -/
def getAnagramsGo (d : AnagramDict) : List (List Nat) → AnagramDict
  | [] => d
  | w :: t =>
    match dictFind d (sig w) with
    | some _ => getAnagramsGo (dictAppendAt d (sig w) w) t
    | none => getAnagramsGo (d ++ [(sig w, [w])]) t

/-- `get_anagrams(words)` from the notebook. -/
def get_anagrams (words : List (List Nat)) : AnagramDict :=
  getAnagramsGo [] words

/-- `get_anagrams_from_word(anagram_dict, word)` from the notebook. -/
def get_anagrams_from_word (d : AnagramDict) (w : List Nat) : List (List Nat) :=
  match dictFind d (sig w) with
  | some l => l
  | none => []

/-- The words of `ws` whose signature is `k`, in input order. -/
def sigFilter (ws : List (List Nat)) (k : List Nat) : List (List Nat) :=
  ws.filter (fun w => sig w == k)

/-! ## get_words -/

/-- The punctuation characters stripped by `get_words`. -/
def punctuationCodes : List Nat :=
  [46, 44, 33, 63, 59, 58, 40, 41, 91, 93, 123, 125, 34, 39]

/-- Whitespace code points recognized by `str.split()`. -/
def isSpaceCode (c : Nat) : Bool :=
  c == 32 || c == 9 || c == 10 || c == 11 || c == 12 || c == 13

/-- `str.split()` with no separator: maximal nonempty runs between
whitespace. -/
def pySplitWs (s : List Nat) : List (List Nat) :=
  (s.splitOnP isSpaceCode).filter (fun w => !w.isEmpty)

/-- `get_words(corpus)` from the notebook. Each single-character
`corpus.replace(p, '')` deletes every occurrence of `p`, so the loop over
the punctuation list is a fold of deletions. CPython iterates a `set` in
an unspecified order, so `list(set(x))` is modelled as a deduplication
keeping one occurrence per element; the claims only use membership. -/
def get_words (corpus : List Nat) : List (List Nat) :=
  let stripped := punctuationCodes.foldl (fun acc p => acc.filter (fun c => c != p)) corpus
  let words := (pySplitWs stripped).dedup
  let filtered := (words.filter pyIsAlpha).map pyLower
  filtered.dedup

/-! ## Filesystem, effects and acquisition -/

/-- A filesystem: file contents by path, plus the set of directories. -/
structure FS where
  files : List (String × List Nat)
  dirs : List String
deriving DecidableEq

/-- First file entry with the given path. -/
def fsFindFile : List (String × List Nat) → String → Option (List Nat)
  | [], _ => none
  | (q, c) :: t, p => if q = p then some c else fsFindFile t p

/-- Read a file (`open(path).read()`); `none` when the file is absent. -/
def fsRead (fs : FS) (p : String) : Option (List Nat) :=
  fsFindFile fs.files p

/-- Write (create or overwrite) a file. -/
def fsWriteFiles : List (String × List Nat) → String → List Nat → List (String × List Nat)
  | [], p, c => [(p, c)]
  | (q, c₀) :: t, p, c => if q = p then (q, c) :: t else (q, c₀) :: fsWriteFiles t p c

/-- Write a file into the filesystem. -/
def fsWrite (fs : FS) (p : String) (c : List Nat) : FS :=
  ⟨fsWriteFiles fs.files p c, fs.dirs⟩

/-- Side effects of an acquisition call: resulting filesystem, printed
messages, and the number of network fetches attempted. -/
structure Eff where
  fs : FS
  log : List String
  fetches : Nat
deriving DecidableEq

/-- `os.makedirs(destination_directory)` when the directory is missing
(`download_text` begins with this step; it never touches files). For
`download_text` itself, `net` is the outcome of
`urllib.request.urlretrieve` for this URL: an error message, or the bytes
that the call stores at the target path. -/
def mkdirs (fs₀ : FS) (dir : String) : FS :=
  if dir ∈ fs₀.dirs then fs₀ else ⟨fs₀.files, fs₀.dirs ++ [dir]⟩

/-- `download_text(url, destination_directory, filename)`, continued:
the body after the `os.makedirs` step. -/
def download_text (net : Except String (List Nat)) (fs₀ : FS)
    (url dir fname : String) : Option (List Nat) × Eff :=
  match fsRead (mkdirs fs₀ dir) (dir ++ "/" ++ fname) with
  | some cached =>
    (some cached, ⟨mkdirs fs₀ dir,
      ["Reading from cached file " ++ (dir ++ "/" ++ fname)], 0⟩)
  | none =>
    match net with
    | Except.error e =>
      (none, ⟨mkdirs fs₀ dir,
        ["Failed to download " ++ url ++ " to " ++ (dir ++ "/" ++ fname) ++ ": " ++ e], 1⟩)
    | Except.ok content =>
      (fsRead (fsWrite (mkdirs fs₀ dir) (dir ++ "/" ++ fname) content) (dir ++ "/" ++ fname),
        ⟨fsWrite (mkdirs fs₀ dir) (dir ++ "/" ++ fname) content,
          ["Downloaded " ++ url ++ " to " ++ (dir ++ "/" ++ fname)], 1⟩)

/-- Python exceptions that the embedding distinguishes. -/
inductive PyErr where
  | indexError
  | fileNotFound
  | uncaught (msg : String)
deriving DecidableEq

/-- The word filter of `get_uk_english_word_list`: the loop skips a word
when `word != word.lower() or not word.isalpha()` and appends it
otherwise. -/
def ukFilter (words : List (List Nat)) : List (List Nat) :=
  words.filter (fun w => w == pyLower w && pyIsAlpha w)

/-- The fixed word-list URL of the notebook. -/
def ukUrl : String :=
  "http://www.gwicks.net/textlists/ukenglish.zip"

/-- `get_uk_english_word_list(directory)` from the notebook.
`urlopenR` is the outcome of the `urllib.request.urlopen` call itself
(which the source does not wrap in a `try`), `readR` the outcome of
`response.read()`, `extractR` the outcome of building the `ZipFile` and
extracting it (the extracted entries as relative path and bytes), and
`dec` models the `cp850` byte decoding, whose table the claims do not
depend on. -/
def get_uk_english_word_list (urlopenR : Except String Unit)
    (readR : Except String (List Nat))
    (extractR : Except String (List (String × List Nat)))
    (dec : List Nat → List Nat) (fs₀ : FS) (dir : String) :
    Except PyErr (Option (List (List Nat)) × Eff) :=
  match fsRead fs₀ (dir ++ "/ukenglish.txt") with
  | some bytes =>
    Except.ok (some (ukFilter ((dec bytes).splitOn 10)),
      ⟨fs₀, ["Reading from cached file " ++ (dir ++ "/ukenglish.txt")], 0⟩)
  | none =>
    match urlopenR with
    | Except.error e => Except.error (PyErr.uncaught e)
    | Except.ok _ =>
      match readR with
      | Except.error e =>
        Except.ok (none, ⟨fs₀, ["Failed to download " ++ ukUrl ++ ": " ++ e], 1⟩)
      | Except.ok _ =>
        match extractR with
        | Except.error e =>
          Except.ok (none, ⟨fs₀, ["Failed to extract " ++ ukUrl ++ ": " ++ e], 1⟩)
        | Except.ok extracted =>
          match fsRead (extracted.foldl (fun a nb => fsWrite a (dir ++ "/" ++ nb.1) nb.2) fs₀)
              (dir ++ "/ukenglish.txt") with
          | none => Except.error PyErr.fileNotFound
          | some bytes =>
            Except.ok (some (ukFilter ((dec bytes).splitOn 10)),
              ⟨extracted.foldl (fun a nb => fsWrite a (dir ++ "/" ++ nb.1) nb.2) fs₀, [], 1⟩)

/-! ## filter_text -/

/-- The start marker of the Gutenberg header. -/
def start_tok : List Nat :=
  ("WILLIAM SHAKESPEARE ***".toList).map Char.toNat

/-- The end marker of the Gutenberg footer. -/
def end_tok : List Nat :=
  ("*** END OF THE PROJECT GUTENBERG EBOOK".toList).map Char.toNat

/-- Resolved physical index of a Python index `i` (negative indices wrap),
defined when `-len ≤ i < len`. -/
def pyIndexVal (len : Nat) (i : Int) : Nat :=
  if 0 ≤ i then i.toNat else ((len : Int) + i).toNat

/-- The loop `while text[start] == chr(10): start += 1`, with `start`
nonnegative: returns the first offset at or after `start` holding a
character other than a newline, or raises `IndexError` when the scan runs
past the end of the text. -/
def skipNewlines (s : List Nat) (start : Nat) : Except PyErr Nat :=
  if _h : start < s.length then
    if s.getD start 0 == 10 then skipNewlines s (start + 1) else Except.ok start
  else Except.error PyErr.indexError
termination_by s.length - start
decreasing_by omega

/-- The loop `while text[end-1] == chr(10): end -= 1`, with Python
negative-index wrapping: raises `IndexError` when `end - 1` leaves
`[-len, len)`. -/
def endTrim (s : List Nat) (e : Int) : Except PyErr Int :=
  if h : -(s.length : Int) ≤ e - 1 ∧ e - 1 < (s.length : Int) then
    if s.getD (pyIndexVal s.length (e - 1)) 0 == 10 then endTrim s (e - 1)
    else Except.ok e
  else Except.error PyErr.indexError
termination_by (e + s.length + 1).toNat
decreasing_by omega

/-- Python slice `s[a:b]` with a nonnegative `a` and an arbitrary `b`. -/
def pySlice (s : List Nat) (a : Nat) (b : Int) : List Nat :=
  let bb : Nat := if b < 0 then ((s.length : Int) + b).toNat else min b.toNat s.length
  (s.take bb).drop a

/-- `filter_text(text, destination_directory, filename)` from the
notebook. -/
def filter_text (fs₀ : FS) (text : List Nat) (dir fname : String) :
    Except PyErr (Option (List Nat) × FS × List String) :=
  match fsRead fs₀ (dir ++ "/" ++ fname) with
  | some cached =>
    Except.ok (some cached, fs₀, ["Reading from cached file " ++ (dir ++ "/" ++ fname)])
  | none =>
    match pyFind text start_tok 0 with
    | none => Except.ok (none, fs₀, ["Unexpected text format"])
    | some s₀ =>
      match skipNewlines text (s₀ + start_tok.length) with
      | Except.error e => Except.error e
      | Except.ok start =>
        match pyFind text end_tok 0 with
        | none => Except.ok (none, fs₀, ["Unexpected text format"])
        | some e₀ =>
          match endTrim text (e₀ : Int) with
          | Except.error e => Except.error e
          | Except.ok endPos =>
            Except.ok (some (pySlice text start endPos),
              fsWrite fs₀ (dir ++ "/" ++ fname) (pySlice text start endPos), [])

/-! ## Lemmas about the substring search -/

theorem pyFindAux_none (s kw : List Nat) (start : Nat)
    (h : pyFindAux s kw start = none) :
    ∀ i, start ≤ i → ¬occursAt s kw i := by
  intro i hi hocc
  rw [pyFindAux] at h
  by_cases hb : start + kw.length ≤ s.length
  · rw [dif_pos hb] at h
    by_cases hm : ((s.drop start).take kw.length == kw) = true
    · rw [if_pos hm] at h
      exact Option.noConfusion h
    · rw [if_neg hm] at h
      rcases Nat.eq_or_lt_of_le hi with heq | hlt
      · subst heq
        exact hm (beq_iff_eq.mpr hocc.2)
      · cases hrec : pyFindAux s kw (start + 1) with
        | none => exact pyFindAux_none s kw (start + 1) hrec i hlt hocc
        | some r => rw [hrec] at h; exact Option.noConfusion h
  · exact hb (Nat.le_trans (Nat.add_le_add_right hi kw.length) hocc.1)
termination_by s.length + 1 - start
decreasing_by omega

theorem pyFindAux_some (s kw : List Nat) (start : Nat)
    (r : {j : Nat // start ≤ j ∧ j + kw.length ≤ s.length})
    (h : pyFindAux s kw start = some r) :
    occursAt s kw r.val ∧ ∀ i, start ≤ i → i < r.val → ¬occursAt s kw i := by
  rw [pyFindAux] at h
  by_cases hb : start + kw.length ≤ s.length
  · rw [dif_pos hb] at h
    by_cases hm : ((s.drop start).take kw.length == kw) = true
    · rw [if_pos hm] at h
      have hv : r.val = start := by
        cases Option.some.inj h
        rfl
      constructor
      · rw [hv]
        exact ⟨hb, beq_iff_eq.mp hm⟩
      · intro i hi hlt
        rw [hv] at hlt
        omega
    · rw [if_neg hm] at h
      cases hrec : pyFindAux s kw (start + 1) with
      | none => rw [hrec] at h; exact Option.noConfusion h
      | some r₀ =>
        rw [hrec] at h
        have hv : r.val = r₀.val := by
          cases Option.some.inj h
          rfl
        have hspec := pyFindAux_some s kw (start + 1) r₀ hrec
        refine ⟨hv ▸ hspec.1, ?_⟩
        intro i hi hlt
        rcases Nat.eq_or_lt_of_le hi with heq | hgt
        · subst heq
          intro hocc
          exact hm (beq_iff_eq.mpr hocc.2)
        · exact hspec.2 i hgt (hv ▸ hlt)
  · rw [dif_neg hb] at h
    exact Option.noConfusion h
termination_by s.length + 1 - start
decreasing_by omega

theorem mem_findQuotesAux (s kw : List Nat) (start j : Nat) :
    j ∈ findQuotesAux s kw start ↔ (start ≤ j ∧ occursAt s kw j) := by
  rw [findQuotesAux]
  cases hf : pyFindAux s kw start with
  | none =>
    simp only [List.not_mem_nil, false_iff, not_and]
    intro hj
    exact pyFindAux_none s kw start hf j hj
  | some r =>
    have hspec := pyFindAux_some s kw start r hf
    have hrb := r.property
    simp only [List.mem_cons]
    constructor
    · rintro (rfl | hmem)
      · exact ⟨hrb.1, hspec.1⟩
      · have := (mem_findQuotesAux s kw (r.val + 1) j).mp hmem
        exact ⟨by omega, this.2⟩
    · rintro ⟨hsj, hocc⟩
      rcases Nat.lt_trichotomy j r.val with hlt | heq | hgt
      · exact absurd hocc (hspec.2 j hsj hlt)
      · exact Or.inl heq
      · exact Or.inr ((mem_findQuotesAux s kw (r.val + 1) j).mpr ⟨hgt, hocc⟩)
termination_by s.length + 1 - start
decreasing_by
  all_goals have h1 := r.property.1
  all_goals have h2 := r.property.2
  all_goals omega

theorem pairwise_findQuotesAux (s kw : List Nat) (start : Nat) :
    List.Pairwise (· < ·) (findQuotesAux s kw start) := by
  rw [findQuotesAux]
  cases hf : pyFindAux s kw start with
  | none => exact List.Pairwise.nil
  | some r =>
    refine List.Pairwise.cons ?_ (pairwise_findQuotesAux s kw (r.val + 1))
    intro b hb
    have := (mem_findQuotesAux s kw (r.val + 1) b).mp hb
    omega
termination_by s.length + 1 - start
decreasing_by
  have h1 := r.property.1
  have h2 := r.property.2
  omega

theorem nodup_findQuotesAux (s kw : List Nat) (start : Nat) :
    (findQuotesAux s kw start).Nodup :=
  (pairwise_findQuotesAux s kw start).imp Nat.ne_of_lt

theorem findQuotesAux_empty_kw (s : List Nat) (start : Nat) :
    findQuotesAux s [] start = List.range' start (s.length + 1 - start) := by
  rw [findQuotesAux]
  by_cases hb : start ≤ s.length
  · have hb' : start + ([] : List Nat).length ≤ s.length := by
      simpa using hb
    have hf : pyFindAux s [] start = some ⟨start, Nat.le_refl start, hb'⟩ := by
      rw [pyFindAux, dif_pos hb']
      simp
    rw [hf]
    show start :: findQuotesAux s [] (start + 1) =
      List.range' start (s.length + 1 - start)
    rw [findQuotesAux_empty_kw s (start + 1)]
    have hn2 : s.length + 1 - (start + 1) = s.length - start := by omega
    rw [hn2]
    have hn : s.length + 1 - start = (s.length - start) + 1 := by omega
    rw [hn, List.range'_succ]
  · have hf : pyFindAux s [] start = none := by
      rw [pyFindAux]
      have : ¬(start + ([] : List Nat).length ≤ s.length) := by
        simpa using hb
      rw [dif_neg this]
    rw [hf]
    have : s.length + 1 - start = 0 := by omega
    rw [this, List.range']
termination_by s.length + 1 - start
decreasing_by omega

theorem find_quotes_eq_filter (s kw : List Nat) :
    find_quotes s kw =
      (List.range (s.length + 1)).filter (fun j => decide (occursAt s kw j)) := by
  haveI : IsAntisymm Nat (· < ·) :=
    ⟨fun a b h1 h2 => absurd h1 (Nat.lt_asymm h2)⟩
  have hmem : ∀ j, j ∈ find_quotes s kw ↔
      j ∈ (List.range (s.length + 1)).filter (fun j => decide (occursAt s kw j)) := by
    intro j
    rw [List.mem_filter, List.mem_range]
    unfold find_quotes
    rw [mem_findQuotesAux]
    constructor
    · rintro ⟨-, hocc⟩
      exact ⟨by have := hocc.1; omega, by simpa using hocc⟩
    · rintro ⟨-, hocc⟩
      exact ⟨Nat.zero_le j, by simpa using hocc⟩
  have hnd₁ : (find_quotes s kw).Nodup := nodup_findQuotesAux s kw 0
  have hnd₂ : ((List.range (s.length + 1)).filter
      (fun j => decide (occursAt s kw j))).Nodup :=
    (List.nodup_range _).filter _
  exact List.eq_of_perm_of_sorted
    ((List.perm_ext_iff_of_nodup hnd₁ hnd₂).mpr hmem)
    (pairwise_findQuotesAux s kw 0)
    ((List.pairwise_lt_range _).filter _)

/-- C4: for every text and every nonempty keyword, `find_quotes` returns
exactly the start offsets at which the keyword occurs in the text
(overlapping occurrences included), in strictly ascending order; in
particular it returns the empty list when the keyword does not occur, and
one offset per occurrence. -/
theorem find_quotes_correct (text keyword : List Nat) (h : keyword ≠ []) :
    find_quotes text keyword =
      (List.range (text.length + 1)).filter
        (fun j => decide (occursAt text keyword j)) ∧
    (∀ j, j ∈ find_quotes text keyword ↔ occursAt text keyword j) ∧
    List.Pairwise (· < ·) (find_quotes text keyword) ∧
    ((∀ j, ¬occursAt text keyword j) → find_quotes text keyword = []) := by
  refine ⟨find_quotes_eq_filter _ _, ?_, pairwise_findQuotesAux _ _ _, ?_⟩
  · intro j
    unfold find_quotes
    rw [mem_findQuotesAux]
    exact ⟨fun hh => hh.2, fun hh => ⟨Nat.zero_le j, hh⟩⟩
  · intro hno
    apply List.eq_nil_iff_forall_not_mem.mpr
    intro j hj
    exact hno j ((mem_findQuotesAux text keyword 0 j).mp hj).2

/-- Witness for C4 on the text "abab" and keyword "ab". -/
theorem find_quotes_correct_witness :
    ([97, 98] : List Nat) ≠ [] ∧ find_quotes [97, 98, 97, 98] [97, 98] = [0, 2] := by
  refine ⟨by decide, ?_⟩
  have h := (find_quotes_correct [97, 98, 97, 98] [97, 98] (by decide)).1
  rw [h]
  decide

/-- C10: `find_quotes` is a total function; every offset appended is
strictly greater than the previous one, and for the empty keyword the
result is every offset from 0 through the length of the text. -/
theorem find_quotes_total (text keyword : List Nat) :
    List.Pairwise (· < ·) (find_quotes text keyword) ∧
    find_quotes text [] = List.range (text.length + 1) := by
  constructor
  · exact pairwise_findQuotesAux text keyword 0
  · unfold find_quotes
    rw [findQuotesAux_empty_kw, List.range_eq_range', Nat.sub_zero]

/-! ## Lemmas about the anagram dict -/

theorem dictFind_cons (k₀ : List Nat) (v₀ : List (List Nat)) (t : AnagramDict)
    (k : List Nat) :
    dictFind ((k₀, v₀) :: t) k = if k₀ = k then some v₀ else dictFind t k :=
  rfl

theorem dictFind_none_iff (d : AnagramDict) (k : List Nat) :
    dictFind d k = none ↔ k ∉ d.map Prod.fst := by
  induction d with
  | nil => simp [dictFind]
  | cons e t ih =>
    obtain ⟨k₀, v₀⟩ := e
    by_cases hk : k₀ = k
    · subst hk
      simp [dictFind_cons]
    · simp [dictFind_cons, hk, ih, Ne.symm hk]

theorem dictFind_some_mem (d : AnagramDict) (k : List Nat)
    (v : List (List Nat)) (h : dictFind d k = some v) : (k, v) ∈ d := by
  induction d with
  | nil => exact Option.noConfusion h
  | cons e t ih =>
    obtain ⟨k₀, v₀⟩ := e
    rw [dictFind_cons] at h
    by_cases hk : k₀ = k
    · rw [if_pos hk] at h
      subst hk
      cases Option.some.inj h
      exact List.mem_cons_self _ _
    · rw [if_neg hk] at h
      exact List.mem_cons_of_mem _ (ih h)

theorem dictAppendAt_map_fst (d : AnagramDict) (k w : List Nat) :
    (dictAppendAt d k w).map Prod.fst = d.map Prod.fst := by
  induction d with
  | nil => rfl
  | cons e t ih =>
    obtain ⟨k₀, v₀⟩ := e
    by_cases hk : k₀ = k
    · simp [dictAppendAt, hk]
    · simp [dictAppendAt, hk, ih]

theorem mem_dictAppendAt (d : AnagramDict) (k w : List Nat)
    (hnd : (d.map Prod.fst).Nodup) (e : List Nat × List (List Nat))
    (he : e ∈ dictAppendAt d k w) :
    (e ∈ d ∧ e.1 ≠ k) ∨ (∃ v, (k, v) ∈ d ∧ e = (k, v ++ [w])) := by
  induction d with
  | nil => exact absurd he (List.not_mem_nil e)
  | cons ent t ih =>
    obtain ⟨k₀, v₀⟩ := ent
    rw [List.map_cons, List.nodup_cons] at hnd
    by_cases hk : k₀ = k
    · subst hk
      rw [dictAppendAt, if_pos rfl] at he
      rcases List.mem_cons.mp he with heq | hmem
      · exact Or.inr ⟨v₀, List.mem_cons_self _ _, heq⟩
      · left
        refine ⟨List.mem_cons_of_mem _ hmem, ?_⟩
        intro hek
        have h1 : e.1 ∈ t.map Prod.fst := List.mem_map_of_mem Prod.fst hmem
        rw [hek] at h1
        exact hnd.1 h1
    · rw [dictAppendAt, if_neg hk] at he
      rcases List.mem_cons.mp he with heq | hmem
      · exact Or.inl ⟨heq ▸ List.mem_cons_self _ _, heq ▸ hk⟩
      · rcases ih hnd.2 hmem with ⟨hm, hne⟩ | ⟨v, hv, hev⟩
        · exact Or.inl ⟨List.mem_cons_of_mem _ hm, hne⟩
        · exact Or.inr ⟨v, List.mem_cons_of_mem _ hv, hev⟩

theorem sigFilter_append (ws : List (List Nat)) (w k : List Nat) :
    sigFilter (ws ++ [w]) k =
      sigFilter ws k ++ (if sig w = k then [w] else []) := by
  unfold sigFilter
  rw [List.filter_append]
  congr 1
  by_cases hs : sig w = k
  · simp [hs]
  · simp [hs]

theorem sigFilter_eq_nil (ws : List (List Nat)) (k : List Nat)
    (h : k ∉ ws.map sig) : sigFilter ws k = [] := by
  apply List.filter_eq_nil_iff.mpr
  intro w hw
  simp only [beq_iff_eq]
  intro hs
  exact h (hs ▸ List.mem_map_of_mem sig hw)

/-- The invariant carried by the `get_anagrams` loop: after processing
the words `p`, the keys are exactly the signatures of `p` and hold no
duplicates, and every entry holds exactly the processed words with that
signature, in processing order. -/
def DictInv (p : List (List Nat)) (d : AnagramDict) : Prop :=
  (d.map Prod.fst).Nodup ∧
  (∀ e ∈ d, e.2 = sigFilter p e.1) ∧
  (∀ k, k ∈ d.map Prod.fst ↔ k ∈ p.map sig)

theorem getAnagramsGo_inv (t : List (List Nat)) :
    ∀ p d, DictInv p d → DictInv (p ++ t) (getAnagramsGo d t) := by
  induction t with
  | nil =>
    intro p d h
    simpa [getAnagramsGo] using h
  | cons w t ih =>
    intro p d h
    obtain ⟨hnd, hval, hkeys⟩ := h
    have hstep : DictInv (p ++ [w])
        (match dictFind d (sig w) with
         | some _ => dictAppendAt d (sig w) w
         | none => d ++ [(sig w, [w])]) := by
      cases hf : dictFind d (sig w) with
      | some v =>
        have hmemk : sig w ∈ d.map Prod.fst :=
          List.mem_map_of_mem Prod.fst (dictFind_some_mem d (sig w) v hf)
        refine ⟨by rw [dictAppendAt_map_fst]; exact hnd, ?_, ?_⟩
        · intro e he
          rcases mem_dictAppendAt d (sig w) w hnd e he with ⟨hm, hne⟩ | ⟨v₀, hv₀, hev⟩
          · rw [hval e hm, sigFilter_append, if_neg (fun hh => hne hh.symm),
              List.append_nil]
          · rw [hev]
            show v₀ ++ [w] = sigFilter (p ++ [w]) (sig w)
            rw [sigFilter_append, if_pos rfl]
            exact congrArg (· ++ [w]) (hval (sig w, v₀) hv₀)
        · intro k
          rw [dictAppendAt_map_fst, hkeys k, List.map_append, List.mem_append]
          constructor
          · exact fun hh => Or.inl hh
          · rintro (hh | hh)
            · exact hh
            · have : k = sig w := by simpa using hh
              exact this ▸ (hkeys (sig w)).mp hmemk
      | none =>
        have hnot : sig w ∉ d.map Prod.fst := (dictFind_none_iff d (sig w)).mp hf
        have hnotp : sig w ∉ p.map sig := fun hh => hnot ((hkeys (sig w)).mpr hh)
        refine ⟨?_, ?_, ?_⟩
        · rw [List.map_append]
          simp only [List.map_cons, List.map_nil]
          rw [List.nodup_append]
          exact ⟨hnd, List.nodup_singleton _,
            fun a ha hb => by simp at hb; exact hnot (hb ▸ ha)⟩
        · intro e he
          rcases List.mem_append.mp he with hm | hm
          · have hne : e.1 ≠ sig w := fun hh => hnot (hh ▸ List.mem_map_of_mem Prod.fst hm)
            rw [hval e hm, sigFilter_append, if_neg (fun hh => hne hh.symm),
              List.append_nil]
          · have : e = (sig w, [w]) := by simpa using hm
            rw [this]
            show [w] = sigFilter (p ++ [w]) (sig w)
            rw [sigFilter_append, if_pos rfl, sigFilter_eq_nil p (sig w) hnotp,
              List.nil_append]
        · intro k
          rw [List.map_append, List.map_append, List.mem_append, List.mem_append]
          simp only [List.map_cons, List.map_nil]
          constructor
          · rintro (hh | hh)
            · exact Or.inl ((hkeys k).mp hh)
            · exact Or.inr (by simpa using hh)
          · rintro (hh | hh)
            · exact Or.inl ((hkeys k).mpr hh)
            · exact Or.inr hh
    have hgo : getAnagramsGo d (w :: t) =
        getAnagramsGo
          (match dictFind d (sig w) with
           | some _ => dictAppendAt d (sig w) w
           | none => d ++ [(sig w, [w])]) t := by
      rw [getAnagramsGo]
      cases dictFind d (sig w) <;> rfl
    rw [hgo]
    have := ih (p ++ [w]) _ hstep
    rwa [List.append_assoc, List.singleton_append] at this

theorem get_anagrams_inv (ws : List (List Nat)) : DictInv ws (get_anagrams ws) := by
  have h0 : DictInv [] ([] : AnagramDict) := by
    refine ⟨List.nodup_nil, ?_, ?_⟩
    · intro e he
      exact absurd he (List.not_mem_nil e)
    · intro k
      simp
  have := getAnagramsGo_inv ws [] [] h0
  simpa [get_anagrams] using this

theorem dictFind_get_anagrams (ws : List (List Nat)) (k : List Nat) :
    dictFind (get_anagrams ws) k =
      if k ∈ ws.map sig then some (sigFilter ws k) else none := by
  obtain ⟨hnd, hval, hkeys⟩ := get_anagrams_inv ws
  by_cases hk : k ∈ ws.map sig
  · rw [if_pos hk]
    cases hf : dictFind (get_anagrams ws) k with
    | none =>
      exact absurd ((hkeys k).mpr hk) ((dictFind_none_iff _ k).mp hf)
    | some v =>
      exact congrArg some (hval (k, v) (dictFind_some_mem _ k v hf))
  · rw [if_neg hk]
    rw [dictFind_none_iff]
    exact fun hh => hk ((hkeys k).mp hh)

theorem get_anagrams_from_word_eq (ws : List (List Nat)) (w : List Nat) :
    get_anagrams_from_word (get_anagrams ws) w = sigFilter ws (sig w) := by
  unfold get_anagrams_from_word
  rw [dictFind_get_anagrams]
  by_cases hk : sig w ∈ ws.map sig
  · rw [if_pos hk]
  · rw [if_neg hk, sigFilter_eq_nil ws (sig w) hk]

/-- C1: every word of the collection passed to `get_anagrams` is contained
in the list returned by looking that word up with
`get_anagrams_from_word` on the resulting index. -/
theorem get_anagrams_contains_self (ws : List (List Nat)) (w : List Nat)
    (h : w ∈ ws) : w ∈ get_anagrams_from_word (get_anagrams ws) w := by
  rw [get_anagrams_from_word_eq]
  unfold sigFilter
  rw [List.mem_filter]
  exact ⟨h, by simp⟩

/-- Witness for C1 on the collection ["li", "il"]. -/
theorem get_anagrams_contains_self_witness :
    ([108, 105] : List Nat) ∈ [[108, 105], [105, 108]] ∧
    ([108, 105] : List Nat) ∈
      get_anagrams_from_word (get_anagrams [[108, 105], [105, 108]]) [108, 105] :=
  ⟨by decide, get_anagrams_contains_self [[108, 105], [105, 108]] [108, 105] (by decide)⟩

/-- C2: every entry of the index built by `get_anagrams` holds exactly the
input words whose signature is its key, in first-seen input order, and
every input word lies in exactly one value list, the one keyed by the
word's own signature. -/
theorem get_anagrams_partition (ws : List (List Nat)) :
    (∀ e ∈ get_anagrams ws, e.2 = sigFilter ws e.1) ∧
    (∀ w ∈ ws, ∃ v, dictFind (get_anagrams ws) (sig w) = some v ∧ w ∈ v ∧
      ∀ e ∈ get_anagrams ws, w ∈ e.2 → e = (sig w, v)) := by
  obtain ⟨hnd, hval, hkeys⟩ := get_anagrams_inv ws
  refine ⟨hval, ?_⟩
  intro w hw
  have hk : sig w ∈ ws.map sig := List.mem_map_of_mem sig hw
  refine ⟨sigFilter ws (sig w), ?_, ?_, ?_⟩
  · rw [dictFind_get_anagrams, if_pos hk]
  · unfold sigFilter
    rw [List.mem_filter]
    exact ⟨hw, by simp⟩
  · rintro ⟨e1, e2⟩ he hwe
    have hv2 : e2 = sigFilter ws e1 := hval (e1, e2) he
    rw [hv2] at hwe
    unfold sigFilter at hwe
    rw [List.mem_filter] at hwe
    have hsig : sig w = e1 := by simpa using hwe.2
    subst hsig
    rw [hv2]

/-- Witness for C2 on the collection ["ab", "ba"] and the word "ba". -/
theorem get_anagrams_partition_witness :
    ([98, 97] : List Nat) ∈ [[97, 98], [98, 97]] ∧
    ∃ v, dictFind (get_anagrams [[97, 98], [98, 97]]) (sig [98, 97]) = some v ∧
      [98, 97] ∈ v ∧
      ∀ e ∈ get_anagrams [[97, 98], [98, 97]], [98, 97] ∈ e.2 →
        e = (sig [98, 97], v) :=
  ⟨by decide, (get_anagrams_partition [[97, 98], [98, 97]]).2 [98, 97] (by decide)⟩

/-- C5: on an index built by `get_anagrams`, `get_anagrams_from_word`
returns the list of stored words sharing the signature of the query, and
the empty list (a value, not a failure) when no stored word shares it. -/
theorem get_anagrams_from_word_spec (ws : List (List Nat)) (w : List Nat) :
    get_anagrams_from_word (get_anagrams ws) w = sigFilter ws (sig w) ∧
    ((∀ u ∈ ws, sig u ≠ sig w) →
      get_anagrams_from_word (get_anagrams ws) w = []) := by
  refine ⟨get_anagrams_from_word_eq ws w, ?_⟩
  intro hnone
  rw [get_anagrams_from_word_eq]
  apply sigFilter_eq_nil
  intro hmem
  rw [List.mem_map] at hmem
  obtain ⟨u, hu, hsu⟩ := hmem
  exact hnone u hu hsu

/-- Witness for C5 on the collection ["ab", "ba"] with queries "ba" and
"c". -/
theorem get_anagrams_from_word_spec_witness :
    get_anagrams_from_word (get_anagrams [[97, 98], [98, 97]]) [98, 97] =
      sigFilter [[97, 98], [98, 97]] (sig [98, 97]) ∧
    (∀ u ∈ [[97, 98], [98, 97]], sig u ≠ sig [99]) ∧
    get_anagrams_from_word (get_anagrams [[97, 98], [98, 97]]) [99] = [] :=
  ⟨(get_anagrams_from_word_spec [[97, 98], [98, 97]] [98, 97]).1, by decide,
    (get_anagrams_from_word_spec [[97, 98], [98, 97]] [99]).2 (by decide)⟩

/-! ## Case handling in the signature (C3) -/

theorem lowerChar_lowerChar (c : Nat) : lowerChar (lowerChar c) = lowerChar c := by
  unfold lowerChar
  by_cases h : 65 ≤ c ∧ c ≤ 90
  · rw [if_pos h, if_neg (by omega)]
  · rw [if_neg h, if_neg h]

theorem mem_pyInsert (c x : Nat) (l : List Nat) :
    x ∈ pyInsert c l ↔ x = c ∨ x ∈ l := by
  induction l with
  | nil => simp [pyInsert]
  | cons d t ih =>
    by_cases hcd : c ≤ d
    · simp [pyInsert, hcd]
    · simp only [pyInsert, if_neg hcd, List.mem_cons, ih]
      tauto

theorem mem_pySort (x : Nat) (l : List Nat) : x ∈ pySort l ↔ x ∈ l := by
  induction l with
  | nil => simp [pySort]
  | cons d t ih =>
    simp only [pySort, mem_pyInsert, List.mem_cons, ih]

theorem pyInsert_map_lower (a : Nat) (l : List Nat)
    (ha : 65 ≤ a ∧ a ≤ 90) (hl : ∀ x ∈ l, 65 ≤ x ∧ x ≤ 90) :
    pyInsert (lowerChar a) (l.map lowerChar) = (pyInsert a l).map lowerChar := by
  induction l with
  | nil => rfl
  | cons d t ih =>
    have hd := hl d (List.mem_cons_self d t)
    have hc : (lowerChar a ≤ lowerChar d) ↔ (a ≤ d) := by
      unfold lowerChar
      rw [if_pos ha, if_pos hd]
      omega
    by_cases hle : a ≤ d
    · simp only [List.map_cons, pyInsert]
      rw [if_pos (hc.mpr hle), if_pos hle]
      simp [List.map_cons]
    · simp only [List.map_cons, pyInsert]
      rw [if_neg (fun hh => hle (hc.mp hh)), if_neg hle]
      rw [List.map_cons]
      rw [ih (fun x hx => hl x (List.mem_cons_of_mem d hx))]

theorem pySort_map_lower (l : List Nat) (hl : ∀ x ∈ l, 65 ≤ x ∧ x ≤ 90) :
    pySort (l.map lowerChar) = (pySort l).map lowerChar := by
  induction l with
  | nil => rfl
  | cons a t ih =>
    simp only [List.map_cons, pySort]
    rw [ih (fun x hx => hl x (List.mem_cons_of_mem a hx))]
    exact pyInsert_map_lower a (pySort t) (hl a (List.mem_cons_self a t))
      (fun x hx => hl x (List.mem_cons_of_mem a ((mem_pySort x t).mp hx)))

theorem pyLower_eq_self_of_no_upper (w : List Nat)
    (h : ∀ c ∈ w, ¬(65 ≤ c ∧ c ≤ 90)) : pyLower w = w := by
  induction w with
  | nil => rfl
  | cons c t ih =>
    have hc : lowerChar c = c := by
      unfold lowerChar
      rw [if_neg (h c (List.mem_cons_self c t))]
    have ht := ih (fun x hx => h x (List.mem_cons_of_mem c hx))
    unfold pyLower at ht ⊢
    rw [List.map_cons, hc, ht]

/-- C3 counterexample: for the mixed-case word "Ba" the computed signature
differs from the signature of the lowercased word, and the two lookups
disagree on the index built from ["ab", "ba"]. -/
theorem sig_lower_counterexample :
    sig [66, 97] ≠ sig (pyLower [66, 97]) ∧
    get_anagrams_from_word (get_anagrams [[97, 98], [98, 97]]) [66, 97] = [] ∧
    get_anagrams_from_word (get_anagrams [[97, 98], [98, 97]]) (pyLower [66, 97]) =
      [[97, 98], [98, 97]] := by
  decide

/-- C3 (amended): the code lowercases after sorting, so the signature of a
word agrees with the signature of its lowercased form whenever the word is
entirely ASCII uppercase or contains no ASCII uppercase letter (in
particular for the all-caps and all-lowercase queries the notebook makes),
and then `get_anagrams_from_word` answers both queries identically on
every index; for mixed-case words the two signatures can differ. -/
theorem sig_lower_monocase (w : List Nat)
    (h : (∀ c ∈ w, 65 ≤ c ∧ c ≤ 90) ∨ (∀ c ∈ w, ¬(65 ≤ c ∧ c ≤ 90))) :
    sig w = sig (pyLower w) ∧
    ∀ d, get_anagrams_from_word d w = get_anagrams_from_word d (pyLower w) := by
  have hsig : sig w = sig (pyLower w) := by
    rcases h with hup | hlo
    · unfold sig pyLower
      rw [pySort_map_lower w hup, List.map_map]
      simp [Function.comp, lowerChar_lowerChar]
    · rw [pyLower_eq_self_of_no_upper w hlo]
  refine ⟨hsig, ?_⟩
  intro d
  unfold get_anagrams_from_word
  rw [hsig]

/-- Witness for the amended C3 at the all-caps word "IPSMTO". -/
theorem sig_lower_monocase_witness :
    ((∀ c ∈ ([73, 80, 83, 77, 84, 79] : List Nat), 65 ≤ c ∧ c ≤ 90) ∨
      (∀ c ∈ ([73, 80, 83, 77, 84, 79] : List Nat), ¬(65 ≤ c ∧ c ≤ 90))) ∧
    sig [73, 80, 83, 77, 84, 79] = sig (pyLower [73, 80, 83, 77, 84, 79]) :=
  ⟨Or.inl (by decide),
    (sig_lower_monocase [73, 80, 83, 77, 84, 79] (Or.inl (by decide))).1⟩

/-! ## Word-list invariants (C8) -/

theorem pyIsAlpha_iff (w : List Nat) :
    pyIsAlpha w = true ↔ w ≠ [] ∧ ∀ c ∈ w, isAlphaCode c = true := by
  unfold pyIsAlpha
  rw [Bool.and_eq_true, List.all_eq_true, Bool.not_eq_true']
  rw [List.isEmpty_eq_false_iff_exists_mem]
  constructor
  · rintro ⟨⟨x, hx⟩, hall⟩
    exact ⟨fun hh => by subst hh; exact absurd hx (List.not_mem_nil x), hall⟩
  · rintro ⟨hne, hall⟩
    refine ⟨?_, hall⟩
    cases w with
    | nil => exact absurd rfl hne
    | cons c t => exact ⟨c, List.mem_cons_self c t⟩

theorem lowerChar_range (c : Nat) (h : isAlphaCode c = true) :
    97 ≤ lowerChar c ∧ lowerChar c ≤ 122 := by
  unfold isAlphaCode at h
  rw [Bool.or_eq_true, Bool.and_eq_true, Bool.and_eq_true] at h
  simp only [decide_eq_true_eq] at h
  unfold lowerChar
  by_cases hu : 65 ≤ c ∧ c ≤ 90
  · rw [if_pos hu]
    omega
  · rw [if_neg hu]
    rcases h with h | h
    · exact absurd h hu
    · exact h

theorem pyLower_fix_pointwise (w : List Nat) (h : pyLower w = w) :
    ∀ c ∈ w, lowerChar c = c := by
  induction w with
  | nil => intro c hc; exact absurd hc (List.not_mem_nil c)
  | cons c t ih =>
    unfold pyLower at h
    rw [List.map_cons, List.cons.injEq] at h
    intro x hx
    rcases List.mem_cons.mp hx with rfl | hmem
    · exact h.1
    · exact ih h.2 x hmem

/-- C8: every member of the lists built by `get_words` and by
`get_uk_english_word_list`, and hence of their deduplicated union, is a
nonempty, purely alphabetic, entirely lowercase string (every code point
in the ASCII range 97..122). -/
theorem word_lists_lower_alpha :
    (∀ corpus w, w ∈ get_words corpus →
      w ≠ [] ∧ ∀ c ∈ w, 97 ≤ c ∧ c ≤ 122) ∧
    (∀ uo rr er dec fs dir ws eff,
      get_uk_english_word_list uo rr er dec fs dir = Except.ok (some ws, eff) →
      ∀ w ∈ ws, w ≠ [] ∧ ∀ c ∈ w, 97 ≤ c ∧ c ≤ 122) ∧
    (∀ corpus uo rr er dec fs dir ws eff,
      get_uk_english_word_list uo rr er dec fs dir = Except.ok (some ws, eff) →
      ∀ w ∈ (get_words corpus ++ ws).dedup,
        w ≠ [] ∧ ∀ c ∈ w, 97 ≤ c ∧ c ≤ 122) := by
  have hwords : ∀ corpus w, w ∈ get_words corpus →
      w ≠ [] ∧ ∀ c ∈ w, 97 ≤ c ∧ c ≤ 122 := by
    intro corpus w hw
    unfold get_words at hw
    rw [List.mem_dedup, List.mem_map] at hw
    obtain ⟨u, hu, rfl⟩ := hw
    rw [List.mem_filter] at hu
    have halpha := (pyIsAlpha_iff u).mp hu.2
    constructor
    · intro hh
      unfold pyLower at hh
      exact halpha.1 (List.map_eq_nil_iff.mp hh)
    · intro c hc
      unfold pyLower at hc
      rw [List.mem_map] at hc
      obtain ⟨x, hx, rfl⟩ := hc
      exact lowerChar_range x (halpha.2 x hx)
  have hukfilter : ∀ (src : List (List Nat)) w, w ∈ ukFilter src →
      w ≠ [] ∧ ∀ c ∈ w, 97 ≤ c ∧ c ≤ 122 := by
    intro src w hw
    unfold ukFilter at hw
    rw [List.mem_filter, Bool.and_eq_true, beq_iff_eq] at hw
    have halpha := (pyIsAlpha_iff w).mp hw.2.2
    have hfix := pyLower_fix_pointwise w hw.2.1.symm
    refine ⟨halpha.1, ?_⟩
    intro c hc
    have ha := halpha.2 c hc
    have hf := hfix c hc
    unfold isAlphaCode at ha
    rw [Bool.or_eq_true, Bool.and_eq_true, Bool.and_eq_true] at ha
    simp only [decide_eq_true_eq] at ha
    unfold lowerChar at hf
    rcases ha with ha | ha
    · rw [if_pos ha] at hf
      omega
    · exact ha
  have huk : ∀ uo rr er (dec : List Nat → List Nat) fs dir ws eff,
      get_uk_english_word_list uo rr er dec fs dir = Except.ok (some ws, eff) →
      ∀ w ∈ ws, w ≠ [] ∧ ∀ c ∈ w, 97 ≤ c ∧ c ≤ 122 := by
    intro uo rr er dec fs dir ws eff h
    have hsrc : ∃ src, ws = ukFilter src := by
      unfold get_uk_english_word_list at h
      split at h
      · simp only [Except.ok.injEq, Prod.mk.injEq] at h
        exact ⟨_, (Option.some.inj h.1).symm⟩
      · split at h
        · exact absurd h (by simp)
        · split at h
          · simp only [Except.ok.injEq, Prod.mk.injEq] at h
            exact absurd h.1 (by simp)
          · split at h
            · simp only [Except.ok.injEq, Prod.mk.injEq] at h
              exact absurd h.1 (by simp)
            · split at h
              · exact absurd h (by simp)
              · simp only [Except.ok.injEq, Prod.mk.injEq] at h
                exact ⟨_, (Option.some.inj h.1).symm⟩
    obtain ⟨src, rfl⟩ := hsrc
    exact hukfilter src
  refine ⟨hwords, huk, ?_⟩
  intro corpus uo rr er dec fs dir ws eff h w hw
  rw [List.mem_dedup, List.mem_append] at hw
  rcases hw with hw | hw
  · exact hwords corpus w hw
  · exact huk uo rr er dec fs dir ws eff h w hw

/-- Witness for C8: the cached word file "a\nBa" filters to the single
word "a", which is alphabetic and lowercase. -/
theorem word_lists_lower_alpha_witness :
    get_uk_english_word_list (Except.ok ()) (Except.ok []) (Except.ok [])
      (fun b => b) ⟨[("data/ukenglish.txt", [97, 10, 66, 97])], []⟩ "data" =
      Except.ok (some [[97]], ⟨⟨[("data/ukenglish.txt", [97, 10, 66, 97])], []⟩,
        ["Reading from cached file data/ukenglish.txt"], 0⟩) ∧
    (([97] : List Nat) ≠ [] ∧ ∀ c ∈ ([97] : List Nat), 97 ≤ c ∧ c ≤ 122) := by
  refine ⟨by rfl, ?_⟩
  exact word_lists_lower_alpha.2.1 (Except.ok ()) (Except.ok []) (Except.ok [])
    (fun b => b) ⟨[("data/ukenglish.txt", [97, 10, 66, 97])], []⟩ "data" [[97]]
    ⟨⟨[("data/ukenglish.txt", [97, 10, 66, 97])], []⟩,
      ["Reading from cached file data/ukenglish.txt"], 0⟩ (by rfl)
    [97] (by decide)

/-! ## Cached acquisition (C9) -/

theorem fsRead_mkdirs (fs : FS) (dir p : String) :
    fsRead (mkdirs fs dir) p = fsRead fs p := by
  unfold mkdirs
  split <;> rfl

/-- C9: when the target file is already present, each acquisition function
reads the cached file, attempts no network fetch, and overwrites no file
(`download_text` at most records the destination directory; its file
entries are returned unchanged). -/
theorem cached_acquisition_no_fetch :
    (∀ net fs url dir fname c, fsRead fs (dir ++ "/" ++ fname) = some c →
      download_text net fs url dir fname =
        (some c, ⟨mkdirs fs dir,
          ["Reading from cached file " ++ (dir ++ "/" ++ fname)], 0⟩) ∧
      (mkdirs fs dir).files = fs.files) ∧
    (∀ uo rr er dec fs dir c, fsRead fs (dir ++ "/ukenglish.txt") = some c →
      get_uk_english_word_list uo rr er dec fs dir =
        Except.ok (some (ukFilter ((dec c).splitOn 10)),
          ⟨fs, ["Reading from cached file " ++ (dir ++ "/ukenglish.txt")], 0⟩)) ∧
    (∀ fs text dir fname c, fsRead fs (dir ++ "/" ++ fname) = some c →
      filter_text fs text dir fname =
        Except.ok (some c, fs,
          ["Reading from cached file " ++ (dir ++ "/" ++ fname)])) := by
  refine ⟨?_, ?_, ?_⟩
  · intro net fs url dir fname c h
    constructor
    · unfold download_text
      rw [fsRead_mkdirs, h]
    · unfold mkdirs
      split <;> rfl
  · intro uo rr er dec fs dir c h
    unfold get_uk_english_word_list
    rw [h]
  · intro fs text dir fname c h
    unfold filter_text
    rw [h]

/-- Witness for C9: filter_text on a filesystem already holding the target
file returns the cached content and leaves the filesystem unchanged. -/
theorem cached_acquisition_no_fetch_witness :
    fsRead ⟨[("data/f.txt", [120])], []⟩ ("data" ++ "/" ++ "f.txt") = some [120] ∧
    filter_text ⟨[("data/f.txt", [120])], []⟩ [] "data" "f.txt" =
      Except.ok (some [120], ⟨[("data/f.txt", [120])], []⟩,
        ["Reading from cached file " ++ ("data" ++ "/" ++ "f.txt")]) :=
  ⟨by rfl, cached_acquisition_no_fetch.2.2 ⟨[("data/f.txt", [120])], []⟩ [] "data"
    "f.txt" [120] (by rfl)⟩

/-! ## Acquisition error handling (C6) -/

/-- C6 counterexample: with no cached file, an error raised by the
`urlopen` call itself propagates out of `get_uk_english_word_list`
uncaught, instead of being caught and turned into an empty result. -/
theorem acquisition_error_counterexample :
    get_uk_english_word_list (Except.error ("refused")) (Except.ok [])
      (Except.ok []) (fun b => b) ⟨[], []⟩ "data" =
      Except.error (PyErr.uncaught ("refused")) := by
  rfl

/-- C6 (amended): a download error in `download_text` is caught, a
diagnostic is printed and `None` is returned; in
`get_uk_english_word_list` an error from reading the response or from
extracting the archive is caught, printed and turned into `None`, but an
error raised by the `urlopen` call itself propagates uncaught. -/
theorem acquisition_error_handling :
    (∀ e fs url dir fname, fsRead fs (dir ++ "/" ++ fname) = none →
      download_text (Except.error e) fs url dir fname =
        (none, ⟨mkdirs fs dir,
          ["Failed to download " ++ url ++ " to " ++ (dir ++ "/" ++ fname) ++
            ": " ++ e], 1⟩)) ∧
    (∀ e rr er dec fs dir, fsRead fs (dir ++ "/ukenglish.txt") = none →
      get_uk_english_word_list (Except.error e) rr er dec fs dir =
        Except.error (PyErr.uncaught e)) ∧
    (∀ e er dec fs dir, fsRead fs (dir ++ "/ukenglish.txt") = none →
      get_uk_english_word_list (Except.ok ()) (Except.error e) er dec fs dir =
        Except.ok (none, ⟨fs, ["Failed to download " ++ ukUrl ++ ": " ++ e], 1⟩)) ∧
    (∀ e zc dec fs dir, fsRead fs (dir ++ "/ukenglish.txt") = none →
      get_uk_english_word_list (Except.ok ()) (Except.ok zc) (Except.error e)
        dec fs dir =
        Except.ok (none, ⟨fs, ["Failed to extract " ++ ukUrl ++ ": " ++ e], 1⟩)) := by
  refine ⟨?_, ?_, ?_, ?_⟩
  · intro e fs url dir fname h
    unfold download_text
    rw [fsRead_mkdirs, h]
  · intro e rr er dec fs dir h
    unfold get_uk_english_word_list
    rw [h]
  · intro e er dec fs dir h
    unfold get_uk_english_word_list
    rw [h]
  · intro e zc dec fs dir h
    unfold get_uk_english_word_list
    rw [h]

/-- Witness for the amended C6: a read error on the response is caught and
yields `None` with a printed diagnostic. -/
theorem acquisition_error_handling_witness :
    fsRead ⟨[], []⟩ ("data" ++ "/ukenglish.txt") = none ∧
    get_uk_english_word_list (Except.ok ()) (Except.error ("reset"))
      (Except.ok []) (fun b => b) ⟨[], []⟩ "data" =
      Except.ok (none, ⟨⟨[], []⟩,
        ["Failed to download " ++ ukUrl ++ ": " ++ "reset"], 1⟩) :=
  ⟨by rfl, acquisition_error_handling.2.2.1 "reset" (Except.ok [])
    (fun b => b) ⟨[], []⟩ "data" (by rfl)⟩

/-! ## Marker handling in filter_text (C7) -/

theorem skipNewlines_error_of_all_nl (s : List Nat) (start : Nat)
    (h : ∀ i, start ≤ i → i < s.length → s.getD i 0 = 10) :
    skipNewlines s start = Except.error PyErr.indexError := by
  rw [skipNewlines]
  by_cases hb : start < s.length
  · rw [dif_pos hb]
    have hnl : (s.getD start 0 == 10) = true := by
      rw [h start (Nat.le_refl start) hb]
      rfl
    rw [if_pos hnl]
    exact skipNewlines_error_of_all_nl s (start + 1)
      (fun i hi hl => h i (by omega) hl)
  · rw [dif_neg hb]
termination_by s.length - start
decreasing_by omega

theorem skipNewlines_ok_of_non_nl (s : List Nat) (start i : Nat)
    (hi : start ≤ i) (hil : i < s.length) (hne : s.getD i 0 ≠ 10) :
    ∃ j, skipNewlines s start = Except.ok j := by
  rw [skipNewlines]
  have hb : start < s.length := by omega
  rw [dif_pos hb]
  by_cases hnl : (s.getD start 0 == 10) = true
  · rw [if_pos hnl]
    have hsi : start ≠ i := by
      intro hh
      subst hh
      exact hne (beq_iff_eq.mp hnl)
    exact skipNewlines_ok_of_non_nl s (start + 1) i (by omega) hil hne
  · rw [if_neg hnl]
    exact ⟨start, rfl⟩
termination_by s.length - start
decreasing_by omega

/-- C7 counterexample: on a text that is exactly the start marker (so the
end marker is missing), `filter_text` raises an IndexError while skipping
newlines after the marker, instead of reporting the malformed format and
returning `None`. -/
theorem filter_text_counterexample :
    pyFind (("WILLIAM SHAKESPEARE ***".toList).map Char.toNat) end_tok 0 = none ∧
    filter_text ⟨[], []⟩ (("WILLIAM SHAKESPEARE ***".toList).map Char.toNat)
      "data" "complete_shakespeare.txt" = Except.error PyErr.indexError := by
  have h1 : pyFind (("WILLIAM SHAKESPEARE ***".toList).map Char.toNat) end_tok 0 =
      none := by
    unfold pyFind
    rw [pyFindAux, dif_neg (by decide)]
    rfl
  have h2 : pyFind (("WILLIAM SHAKESPEARE ***".toList).map Char.toNat) start_tok 0 =
      some 0 := by
    unfold pyFind
    rw [pyFindAux, dif_pos (by decide), if_pos (by decide)]
    rfl
  have h3 : skipNewlines (("WILLIAM SHAKESPEARE ***".toList).map Char.toNat)
      (0 + start_tok.length) = Except.error PyErr.indexError := by
    rw [skipNewlines, dif_neg (by decide)]
  refine ⟨h1, ?_⟩
  unfold filter_text
  simp only [h2, h3]
  rfl

/-- C7 (amended): with no cached file, a missing start marker is reported
and yields `None`; a present start marker followed somewhere by a
non-newline character with the end marker missing is likewise reported
and yields `None`; but when every character after the start marker is a
newline (in particular when the text ends at the marker, a case in which
the end marker is missing too), `filter_text` raises an IndexError
instead of returning. -/
theorem filter_text_markers (fs : FS) (text : List Nat) (dir fname : String)
    (hc : fsRead fs (dir ++ "/" ++ fname) = none) :
    (pyFind text start_tok 0 = none →
      filter_text fs text dir fname =
        Except.ok (none, fs, ["Unexpected text format"])) ∧
    (∀ s₀, pyFind text start_tok 0 = some s₀ →
      ((∃ i, s₀ + start_tok.length ≤ i ∧ i < text.length ∧ text.getD i 0 ≠ 10) →
        pyFind text end_tok 0 = none →
        filter_text fs text dir fname =
          Except.ok (none, fs, ["Unexpected text format"])) ∧
      ((∀ i, s₀ + start_tok.length ≤ i → i < text.length → text.getD i 0 = 10) →
        filter_text fs text dir fname = Except.error PyErr.indexError)) := by
  refine ⟨?_, ?_⟩
  · intro hs
    unfold filter_text
    rw [hc, hs]
  · intro s₀ hs
    constructor
    · rintro ⟨i, hi1, hi2, hi3⟩ hend
      obtain ⟨j, hj⟩ :=
        skipNewlines_ok_of_non_nl text (s₀ + start_tok.length) i hi1 hi2 hi3
      unfold filter_text
      simp only [hc, hs, hj, hend]
    · intro hall
      unfold filter_text
      simp only [hc, hs,
        skipNewlines_error_of_all_nl text (s₀ + start_tok.length) hall]

/-- Witness for the amended C7: a text with no markers at all is reported
as malformed and yields `None`. -/
theorem filter_text_markers_witness :
    fsRead ⟨[], []⟩ ("data" ++ "/" ++ "f.txt") = none ∧
    pyFind (("no markers".toList).map Char.toNat) start_tok 0 = none ∧
    filter_text ⟨[], []⟩ (("no markers".toList).map Char.toNat) "data" "f.txt" =
      Except.ok (none, ⟨[], []⟩, ["Unexpected text format"]) := by
  have h1 : pyFind (("no markers".toList).map Char.toNat) start_tok 0 = none := by
    unfold pyFind
    rw [pyFindAux, dif_neg (by decide)]
    rfl
  exact ⟨by rfl, h1,
    (filter_text_markers ⟨[], []⟩ (("no markers".toList).map Char.toNat)
      "data" "f.txt" (by rfl)).1 h1⟩

end Shakespeare
